import Mathlib

/-!
Verification of the relocation-resolution and symbolic-call-synthesis passes
of the revamb binary-lifting pipeline (relocationpass.h / relocationpass.cpp).

The program representation (LLVM IR) is shallowly embedded:

* a basic block is a `List Instr`;
* a load instruction records a unique identifier, the constant address of its
  pointer operand when that operand is an `inttoptr` of a `ConstantInt`
  (`none` otherwise), and its optional `revamb.relocation` metadata tag;
* a store records whether its pointer operand is the program counter
  (the verdict of `JumpTargetManager::isPCReg`, an external oracle) and the
  identifier of the load defining its value operand when the value operand is
  a `LoadInst` (`none` otherwise);
* a call records the name of its callee when `getCalledFunction` yields a
  named function (`none` models an indirect callee);
* `other` stands for any further instruction (in particular a block
  terminator);
* the module's function table is a `List Func`; per the spec's external
  interface, `Module::getOrInsertFunction` looks a function up by name or
  creates it.

Value operands are resolved by identifier over the loads of the module; the
passes never delete or rewrite a load instruction, so this resolution is
stable throughout a pass.
-/

namespace Revamb

/-- Relocation record supplied by the object-file reader: address, symbol
name and addend (`RelocationInfo` in binaryfile.h). -/
structure RelocationInfo where
  Address : Nat
  Name : String
  Addend : Int
deriving DecidableEq, Repr

/-- The payload of a `revamb.relocation` metadata node: the symbol name
(`MDString` operand 0) and the addend (`ConstantInt` operand 1). -/
structure RelocTag where
  symName : String
  addend : Int
deriving DecidableEq, Repr

/-- Shallow embedding of the instructions the passes inspect. -/
inductive Instr where
  | load (id : Nat) (ptrConst : Option Nat) (tag : Option RelocTag)
  | store (isPC : Bool) (valueLoad : Option Nat)
  | call (callee : Option String)
  | other
deriving DecidableEq, Repr

/-- A function of the module: its name, whether it returns void, its number
of parameters, its varargs flag, and whether it has a body (a body, when
present, is a single basic block that returns immediately; `hasBody = false`
is `Function::isDeclaration`). -/
structure Func where
  name : String
  returnsVoid : Bool
  numParams : Nat
  isVarArg : Bool
  hasBody : Bool
deriving DecidableEq, Repr

/-- A module: the basic blocks of the lifted code plus the function table. -/
structure Module where
  blocks : List (List Instr)
  funcs : List Func
deriving DecidableEq, Repr

/-- Embedding of `Module::getOrInsertFunction(Name, FType)` where `FType` is
`FunctionType::get(void, varArg)` with no parameters: return the function of
that name if one exists, otherwise append a fresh declaration. -/
def getOrInsertFunction (funcs : List Func) (name : String) (varArg : Bool) :
    List Func :=
  if funcs.any (fun f => f.name == name) then funcs
  else funcs ++ [⟨name, true, 0, varArg, false⟩]

/-- Recognizer for load instructions. -/
def Instr.isLoad : Instr → Bool
  | .load _ _ _ => true
  | _ => false

/-- Number of load instructions of a block; the call-synthesis passes insert
only call instructions, so this count is their termination measure. -/
def countLoads (bb : List Instr) : Nat := (bb.filter Instr.isLoad).length

namespace LocateRelocationAccessesPass

/-- The relocation-table loop of `LocateRelocationAccessesPass::handleLoad`
(relocationpass.cpp): scan the records in order; at the first record whose
address equals the load's constant pointer, tag the load if it is untagged
and report a change; an already tagged load is left as is. -/
def scanRelocations (relocs : List RelocationInfo) (a : Nat)
    (tag : Option RelocTag) : Option RelocTag × Bool :=
  match relocs with
  | [] => (tag, false)
  | r :: rs =>
    if r.Address == a then
      match tag with
      | none => (some ⟨r.Name, r.Addend⟩, true)
      | some t => scanRelocations rs a (some t)
    else scanRelocations rs a tag

/-- `LocateRelocationAccessesPass::handleLoad`: only a load whose pointer
operand is an `inttoptr` of a constant integer is considered; its tag is
updated by the relocation scan. Non-load instructions are untouched (the
caller only invokes this on loads). -/
def handleLoad (relocs : List RelocationInfo) (i : Instr) : Instr × Bool :=
  match i with
  | .load id (some a) tag =>
    let r := scanRelocations relocs a tag
    (.load id (some a) r.1, r.2)
  | i => (i, false)

/-- `LocateRelocationAccessesPass::runOnBasicBlock`: fold `handleLoad` over
the instructions of the block, or-ing the change flags. -/
def runOnBasicBlock (relocs : List RelocationInfo) :
    List Instr → List Instr × Bool
  | [] => ([], false)
  | i :: rest =>
    let hd := handleLoad relocs i
    let tl := runOnBasicBlock relocs rest
    (hd.1 :: tl.1, hd.2 || tl.2)

end LocateRelocationAccessesPass

namespace TranslateRelocationCallsPass

/-- The user filter of `TranslateRelocationCallsPass::handleLoad`: a user of
the freshly tagged load qualifies when it is a store whose pointer operand is
the PC register and whose value operand is that load. -/
def isUserPCStore (id : Nat) (i : Instr) : Bool :=
  match i with
  | .store true (some vid) => vid == id
  | _ => false

/-- The user loop of `TranslateRelocationCallsPass::handleLoad` combined
with `handlePCStore` and `buildCall`: for every qualifying user store of the
load `id`, freshly tagged with `t`, when the tag's addend is zero, obtain
the callee (`getOrInsertFunction` with a varargs void type and the bare
symbol name — the fused variant adds no `"dl."` prefix and gives the
function no body) and insert a call to it immediately before the store. In
the block the users of a load come after it, so only the instructions
following the load are scanned. -/
def handleUsers (funcs : List Func) (id : Nat) (t : RelocTag) :
    List Instr → List Instr × List Func
  | [] => ([], funcs)
  | i :: rest =>
    if isUserPCStore id i then
      if t.addend == 0 then
        let funcs2 := getOrInsertFunction funcs t.symName true
        let r := handleUsers funcs2 id t rest
        (.call (some t.symName) :: i :: r.1, r.2)
      else
        let r := handleUsers funcs id t rest
        (i :: r.1, r.2)
    else
      let r := handleUsers funcs id t rest
      (i :: r.1, r.2)

/-- The relocation-table loop of `TranslateRelocationCallsPass::handleLoad`:
at the first record matching the load's constant address, if the load is
untagged, tag it and process its users; an already tagged load is skipped
(the loop moves on and ends reporting no change). -/
def handleLoadScan (funcs : List Func) (relocs : List RelocationInfo)
    (a id : Nat) (tag : Option RelocTag) (rest : List Instr) :
    Option RelocTag × List Instr × List Func × Bool :=
  match relocs with
  | [] => (tag, rest, funcs, false)
  | r :: rs =>
    if r.Address == a then
      match tag with
      | none =>
        let t : RelocTag := ⟨r.Name, r.Addend⟩
        let u := handleUsers funcs id t rest
        (some t, u.1, u.2, true)
      | some t => handleLoadScan funcs rs a id (some t) rest
    else handleLoadScan funcs rs a id tag rest

/-- The instruction loop of `TranslateRelocationCallsPass::runOnBasicBlock`:
each load whose pointer operand is an `inttoptr` of a constant is handled by
`handleLoad`; the iterator also traverses the calls inserted by earlier
loads, which trigger nothing. Termination: every step either handles a load
(the remaining list holds one load fewer, since `handleUsers` inserts only
calls) or shortens the list. -/
def runOnInstrList (relocs : List RelocationInfo) (funcs : List Func) :
    List Instr → List Instr × List Func × Bool
  | [] => ([], funcs, false)
  | .load id (some a) tag :: rest =>
    let s := handleLoadScan funcs relocs a id tag rest
    let r := runOnInstrList relocs s.2.2.1 s.2.1
    (.load id (some a) s.1 :: r.1, r.2.1, s.2.2.2 || r.2.2)
  | i :: rest =>
    let r := runOnInstrList relocs funcs rest
    (i :: r.1, r.2.1, r.2.2)
termination_by bb => (countLoads bb, bb.length)
decreasing_by
  · have hu : ∀ (g : List Func) (i' : Nat) (t : RelocTag) (l : List Instr),
        countLoads (handleUsers g i' t l).1 = countLoads l := by
      intro g i' t l
      induction l generalizing g with
      | nil => simp [handleUsers]
      | cons j jrest ih =>
        simp only [handleUsers]
        split
        · split
          · simp [countLoads, List.filter_cons, Instr.isLoad] at ih ⊢
            split <;> simp [ih]
          · simp [countLoads, List.filter_cons] at ih ⊢
            split <;> simp [ih]
        · simp [countLoads, List.filter_cons] at ih ⊢
          split <;> simp [ih]
    have hs : ∀ (g : List Func) (rl : List RelocationInfo) (a' i' : Nat)
        (tg : Option RelocTag) (l : List Instr),
        countLoads (handleLoadScan g rl a' i' tg l).2.1 = countLoads l := by
      intro g rl a' i' tg l
      induction rl generalizing tg with
      | nil => simp [handleLoadScan]
      | cons r rs ih =>
        simp only [handleLoadScan]
        split
        · split
          · simp [hu]
          · exact ih _
        · exact ih _
    simp only [Prod.lex_def]
    left
    rw [hs]
    simp [countLoads, List.filter_cons, Instr.isLoad]
  · simp only [Prod.lex_def]
    by_cases hi : Instr.isLoad i
    · left
      simp [countLoads, List.filter_cons, hi]
    · right
      refine ⟨by simp [countLoads, List.filter_cons, hi], by simp⟩

/-- `TranslateRelocationCallsPass::runOnBasicBlock`: run the fused
locate-and-rewrite loop over the block, given the relocation table and the
module's function table. -/
def runOnBasicBlock (relocs : List RelocationInfo) (funcs : List Func)
    (bb : List Instr) : List Instr × List Func × Bool :=
  runOnInstrList relocs funcs bb

end TranslateRelocationCallsPass

namespace AddRelocationCallsPass

/-- Resolution of a store's value operand: the first load of the module
carrying the given identifier. -/
def findLoadB (blocks : List (List Instr)) (id : Nat) : Option Instr :=
  match blocks with
  | [] => none
  | bb :: rest =>
    match bb.find? (fun i => match i with
                             | .load lid _ _ => lid == id
                             | _ => false) with
    | some i => some i
    | none => findLoadB rest id

/-- `AddRelocationCallsPass::getRelocName`: read the relocation metadata of
an instruction; return the symbol name when metadata is present and, if
`needsZeroAddend`, the addend is zero; otherwise the empty string (the
`StringRef {}` of the source). -/
def getRelocName (tag : Option RelocTag) (needsZeroAddend : Bool) : String :=
  match tag with
  | some t => if !needsZeroAddend || t.addend == 0 then t.symName else ""
  | none => ""

/-- The qualification test of `AddRelocationCallsPass::visitStoreInst`: a
store qualifies when its pointer operand is the PC register, its value
operand is a load, and that load carries relocation metadata with zero
addend and a non-empty symbol name; in that case the symbol name is
returned, otherwise `""`. -/
def storeName (env : List (List Instr)) (i : Instr) : String :=
  match i with
  | .store true (some lid) =>
    match findLoadB env lid with
    | some (.load _ _ tag) => getRelocName tag true
    | _ => ""
  | _ => ""

/-- `AddRelocationCallsPass::succeededByCall`, applied to the instruction
following the store: true when it is a call whose callee is a function of
exactly the given name. -/
def succeededByCall (n : Instr) (fname : String) : Bool :=
  match n with
  | .call (some f) => f == fname
  | _ => false

/-- The function-table effect of `AddRelocationCallsPass::buildCall`: get or
insert the stub (void return, no parameters, not varargs) and, if it is a
declaration, give it a minimal body that returns immediately. The call
instruction itself is inserted by the caller right after the store. -/
def buildCall (funcs : List Func) (fname : String) : List Func :=
  (getOrInsertFunction funcs fname false).map
    (fun f => if f.name == fname && !f.hasBody then
                { f with hasBody := true }
              else f)

/-- One block of the `InstVisitor` traversal of
`AddRelocationCallsPass::runOnModule`. For each store, the behaviour of
`visitStoreInst`: a non-qualifying store is skipped; a qualifying store whose
next instruction is already a call to `"dl." ++ name` is skipped; otherwise
the stub is obtained and a call to it is inserted immediately after the
store. A qualifying store with no next instruction aborts (`none`): the
source dereferences `getNextNode()` in `succeededByCall` and asserts it
non-null in `buildCall`, so this is the fatal-assertion path. The inserted
call is itself traversed by the visitor but triggers nothing. -/
def visitBlock (env : List (List Instr)) (funcs : List Func) :
    List Instr → Option (List Instr × List Func × Bool)
  | [] => some ([], funcs, false)
  | i :: rest =>
    if storeName env i = "" then
      match visitBlock env funcs rest with
      | none => none
      | some (r, f, c) => some (i :: r, f, c)
    else
      match rest with
      | [] => none
      | n :: _ =>
        if succeededByCall n ("dl." ++ storeName env i) then
          match visitBlock env funcs rest with
          | none => none
          | some (r, f, c) => some (i :: r, f, c)
        else
          match visitBlock env (buildCall funcs ("dl." ++ storeName env i))
              rest with
          | none => none
          | some (r, f, c) =>
            some (i :: .call (some ("dl." ++ storeName env i)) :: r, f, true)

/-- The block list traversal of `runOnModule`, threading the function table
and or-ing the change flags. -/
def visitBlocks (env : List (List Instr)) (funcs : List Func) :
    List (List Instr) → Option (List (List Instr) × List Func × Bool)
  | [] => some ([], funcs, false)
  | bb :: rest =>
    match visitBlock env funcs bb with
    | none => none
    | some (bb2, funcs2, c1) =>
      match visitBlocks env funcs2 rest with
      | none => none
      | some (rest2, funcs3, c2) => some (bb2 :: rest2, funcs3, c1 || c2)

/-- `AddRelocationCallsPass::runOnModule`: visit every store of the module
and report whether a call was inserted. The pass has no relocation table and
computes no tags; it only reads tags already present (its analysis usage
merely declares `LocateRelocationAccessesPass` used-if-available). `none`
models the fatal-assertion abort. -/
def runOnModule (m : Module) : Option (Module × Bool) :=
  match visitBlocks m.blocks m.funcs m.blocks with
  | none => none
  | some (bbs, funcs, c) => some (⟨bbs, funcs⟩, c)

/-- A block is well formed when every store in it has a following
instruction, i.e. no store is the last instruction (LLVM blocks end in a
terminator, which is never a store). -/
def wellFormedBlock : List Instr → Bool
  | [] => true
  | [i] => match i with
           | .store _ _ => false
           | _ => true
  | _ :: rest => wellFormedBlock rest

end AddRelocationCallsPass

/-- Number of call instructions of a block whose callee is the function
named `nm`. -/
def countCallsTo (bb : List Instr) (nm : String) : Nat :=
  bb.countP (fun i => i == .call (some nm))

/-- An instruction carries no relocation tag (true for every non-load). -/
def Instr.untagged : Instr → Bool
  | .load _ _ (some _) => false
  | _ => true

/-- No instruction of the module carries a relocation tag. -/
def untaggedBlocks (blocks : List (List Instr)) : Bool :=
  blocks.all (List.all · Instr.untagged)

/-- No load of the block is both untagged and aimed at an address present in
the relocation table: on such a block the fused variant has nothing left to
tag. -/
def noMatchingUntagged (relocs : List RelocationInfo) (bb : List Instr) :
    Bool :=
  bb.all fun i =>
    match i with
    | .load _ (some a) none => relocs.all fun r => !(r.Address == a)
    | _ => true

/-- The relocation table of the spec's end-to-end scenario. -/
def printfRelocs : List RelocationInfo := [⟨0x4020, "printf", 0⟩]

/-- The block of the end-to-end scenario, `r = load(inttoptr(0x4020));
store(PC, r)`, closed by the block terminator (modelled by `other`). -/
def printfBlock : List Instr :=
  [.load 1 (some 0x4020) none, .store true (some 1), .other]

/-- The end-to-end block once the locator has tagged the load. -/
def printfTaggedBlock : List Instr :=
  [.load 1 (some 0x4020) (some ⟨"printf", 0⟩), .store true (some 1), .other]

/-- The end-to-end block after the split rewrite of the tagged block. -/
def printfRewrittenBlock : List Instr :=
  [.load 1 (some 0x4020) (some ⟨"printf", 0⟩), .store true (some 1),
   .call (some "dl.printf"), .other]

/-- A module holding only the untagged end-to-end block. -/
def printfModule : Module := ⟨[printfBlock], []⟩

/-- The end-to-end block after the fused variant: the load is tagged and a
call to the bare symbol name is inserted before the store. -/
def printfFusedBlock : List Instr :=
  [.load 1 (some 0x4020) (some ⟨"printf", 0⟩), .call (some "printf"),
   .store true (some 1), .other]

/-- A module with two distinct tagged program-counter stores referencing
the same symbol, for the stub-reuse scenario. -/
def twoStoreModule : Module :=
  ⟨[[.load 1 (some 0x4020) (some ⟨"printf", 0⟩), .store true (some 1),
     .other],
    [.load 2 (some 0x4020) (some ⟨"printf", 0⟩), .store true (some 2),
     .other]], []⟩

/-- The two-store module after the split rewrite: one call per store, one
shared stub function. -/
def twoStoreOut : Module :=
  ⟨[[.load 1 (some 0x4020) (some ⟨"printf", 0⟩), .store true (some 1),
     .call (some "dl.printf"), .other],
    [.load 2 (some 0x4020) (some ⟨"printf", 0⟩), .store true (some 2),
     .call (some "dl.printf"), .other]],
   [⟨"dl.printf", true, 0, false, true⟩]⟩

/-- Modelled from the spec: the implementation of
`AddLibraryMetadataPass::runOnModule` is not among the sources (only the
class declaration in relocationpass.h is); per spec section 4.4 the pass
attaches the library list to the module as a single piece of module-level
metadata, one entry per library, preserving input order, and re-invocation
replaces any prior metadata with the new list. The metadata slot is modelled
as an optional list of names. -/
def AddLibraryMetadataPass.runOnModule (libraries : List String)
    (priorMetadata : Option (List String)) : Option (List String) :=
  some libraries

end Revamb

namespace Revamb

namespace AddRelocationCallsPass

theorem visitBlock_head {env : List (List Instr)} {funcs : List Func}
    {i : Instr} {rest out : List Instr} {f' : List Func} {c : Bool}
    (h : visitBlock env funcs (i :: rest) = some (out, f', c)) :
    ∃ tl, out = i :: tl := by
  simp only [visitBlock] at h
  split at h
  · split at h
    · simp at h
    · simp only [Option.some.injEq, Prod.mk.injEq] at h
      exact ⟨_, h.1.symm⟩
  · split at h
    · simp at h
    · split at h
      · split at h
        · simp at h
        · simp only [Option.some.injEq, Prod.mk.injEq] at h
          exact ⟨_, h.1.symm⟩
      · split at h
        · simp at h
        · simp only [Option.some.injEq, Prod.mk.injEq] at h
          exact ⟨_, h.1.symm⟩

theorem visitBlock_filter {env : List (List Instr)} {funcs : List Func}
    {bb bb' : List Instr} {f' : List Func} {c : Bool}
    (h : visitBlock env funcs bb = some (bb', f', c))
    (p : Instr → Bool) (hp : ∀ s, p (Instr.call s) = false) :
    bb'.filter p = bb.filter p := by
  induction bb generalizing funcs bb' f' c with
  | nil =>
    simp only [visitBlock, Option.some.injEq, Prod.mk.injEq] at h
    simp [← h.1]
  | cons i rest ih =>
    simp only [visitBlock] at h
    split at h
    · split at h
      · simp at h
      · rename_i heq
        simp only [Option.some.injEq, Prod.mk.injEq] at h
        rw [← h.1, List.filter_cons, List.filter_cons, ih heq]
    · split at h
      · simp at h
      · split at h
        · split at h
          · simp at h
          · rename_i heq
            simp only [Option.some.injEq, Prod.mk.injEq] at h
            rw [← h.1, List.filter_cons, List.filter_cons, ih heq]
        · split at h
          · simp at h
          · rename_i heq
            simp only [Option.some.injEq, Prod.mk.injEq] at h
            simp [← h.1, List.filter_cons, hp, ih heq]

theorem visitBlock_find {env : List (List Instr)} {funcs : List Func}
    {bb bb' : List Instr} {f' : List Func} {c : Bool}
    (h : visitBlock env funcs bb = some (bb', f', c))
    (p : Instr → Bool) (hp : ∀ s, p (Instr.call s) = false) :
    bb'.find? p = bb.find? p := by
  induction bb generalizing funcs bb' f' c with
  | nil =>
    simp only [visitBlock, Option.some.injEq, Prod.mk.injEq] at h
    simp [← h.1]
  | cons i rest ih =>
    simp only [visitBlock] at h
    split at h
    · split at h
      · simp at h
      · rename_i heq
        simp only [Option.some.injEq, Prod.mk.injEq] at h
        rw [← h.1, List.find?_cons, List.find?_cons, ih heq]
    · split at h
      · simp at h
      · split at h
        · split at h
          · simp at h
          · rename_i heq
            simp only [Option.some.injEq, Prod.mk.injEq] at h
            rw [← h.1, List.find?_cons, List.find?_cons, ih heq]
        · split at h
          · simp at h
          · rename_i heq
            simp only [Option.some.injEq, Prod.mk.injEq] at h
            rw [← h.1, List.find?_cons, List.find?_cons, List.find?_cons,
              hp, ih heq]

theorem visitBlocks_findLoadB {env : List (List Instr)} {funcs : List Func}
    {bbs bbs' : List (List Instr)} {f' : List Func} {c : Bool}
    (h : visitBlocks env funcs bbs = some (bbs', f', c)) (id : Nat) :
    findLoadB bbs' id = findLoadB bbs id := by
  induction bbs generalizing funcs bbs' f' c with
  | nil =>
    simp only [visitBlocks, Option.some.injEq, Prod.mk.injEq] at h
    simp [← h.1]
  | cons bb rest ih =>
    simp only [visitBlocks] at h
    split at h
    · simp at h
    · rename_i heq
      split at h
      · simp at h
      · rename_i heq2
        simp only [Option.some.injEq, Prod.mk.injEq] at h
        rw [← h.1]
        simp only [findLoadB]
        rw [visitBlock_find heq _ (fun s => rfl), ih heq2]

theorem storeName_congr {env env' : List (List Instr)}
    (hE : ∀ id, findLoadB env' id = findLoadB env id) (i : Instr) :
    storeName env' i = storeName env i := by
  cases i with
  | load a b t => rfl
  | call s => rfl
  | other => rfl
  | store isPC v =>
    cases isPC with
    | false => rfl
    | true =>
      cases v with
      | none => rfl
      | some lid => simp only [storeName, hE]

theorem visitBlock_cons_skip {env : List (List Instr)} {g g2 : List Func}
    {i : Instr} {rest out : List Instr} {c2 : Bool}
    (hname : storeName env i = "")
    (h : visitBlock env g rest = some (out, g2, c2)) :
    visitBlock env g (i :: rest) = some (i :: out, g2, c2) := by
  cases rest with
  | nil =>
    rw [visitBlock.eq_1] at h
    simp only [Option.some.injEq, Prod.mk.injEq] at h
    rw [visitBlock.eq_2, if_pos hname, visitBlock.eq_1, ← h.1, ← h.2.1,
      ← h.2.2]
  | cons n tail =>
    rw [visitBlock.eq_3, if_pos hname, h]

theorem visitBlock_cons_skipcall {env : List (List Instr)} {g g2 : List Func}
    {i n : Instr} {rtl out : List Instr} {c2 : Bool}
    (hname : ¬ storeName env i = "")
    (hcall : succeededByCall n ("dl." ++ storeName env i) = true)
    (h : visitBlock env g (n :: rtl) = some (out, g2, c2)) :
    visitBlock env g (i :: n :: rtl) = some (i :: out, g2, c2) := by
  rw [visitBlock.eq_3, if_neg hname, if_pos hcall, h]

theorem visitBlock_cons_insert {env : List (List Instr)} {g g2 : List Func}
    {i n : Instr} {rtl out : List Instr} {c2 : Bool}
    (hname : ¬ storeName env i = "")
    (hcall : succeededByCall n ("dl." ++ storeName env i) = false)
    (h : visitBlock env (buildCall g ("dl." ++ storeName env i)) (n :: rtl)
           = some (out, g2, c2)) :
    visitBlock env g (i :: n :: rtl) =
      some (i :: .call (some ("dl." ++ storeName env i)) :: out, g2, true) := by
  rw [visitBlock.eq_3, if_neg hname, if_neg (by rw [hcall]; simp), h]

theorem visitBlock_idem {env env' : List (List Instr)}
    (hE : ∀ id, findLoadB env' id = findLoadB env id)
    {funcs : List Func} {bb bb' : List Instr} {f' : List Func} {c : Bool}
    (h : visitBlock env funcs bb = some (bb', f', c)) (g : List Func) :
    visitBlock env' g bb' = some (bb', g, false) := by
  induction bb generalizing funcs bb' f' c g with
  | nil =>
    simp only [visitBlock, Option.some.injEq, Prod.mk.injEq] at h
    simp [visitBlock, ← h.1]
  | cons i rest ih =>
    simp only [visitBlock] at h
    split at h
    · rename_i hname
      split at h
      · simp at h
      · rename_i heq
        simp only [Option.some.injEq, Prod.mk.injEq] at h
        rw [← h.1]
        have hname' : storeName env' i = "" := by
          rw [storeName_congr hE]; exact hname
        exact visitBlock_cons_skip hname' (ih heq g)
    · rename_i hname
      have hname' : ¬ storeName env' i = "" := by
        rw [storeName_congr hE]; exact hname
      split at h
      · simp at h
      · rename_i n rtl
        split at h
        · rename_i hcall
          split at h
          · simp at h
          · rename_i heq
            obtain ⟨tl, rfl⟩ := visitBlock_head heq
            simp only [Option.some.injEq, Prod.mk.injEq] at h
            rw [← h.1]
            have hcall' : succeededByCall n ("dl." ++ storeName env' i)
                = true := by
              rw [storeName_congr hE]; exact hcall
            exact visitBlock_cons_skipcall hname' hcall' (ih heq g)
        · rename_i hcall
          split at h
          · simp at h
          · rename_i heq
            simp only [Option.some.injEq, Prod.mk.injEq] at h
            rw [← h.1]
            have hinner : visitBlock env' g
                (Instr.call (some ("dl." ++ storeName env i)) :: _)
                = some (Instr.call (some ("dl." ++ storeName env i)) :: _,
                    g, false) :=
              visitBlock_cons_skip rfl (ih heq g)
            have hcall' : succeededByCall
                (Instr.call (some ("dl." ++ storeName env i)))
                ("dl." ++ storeName env' i) = true := by
              rw [storeName_congr hE]; simp [succeededByCall]
            exact visitBlock_cons_skipcall hname' hcall' hinner

theorem visitBlocks_idem {env env' : List (List Instr)}
    (hE : ∀ id, findLoadB env' id = findLoadB env id)
    {funcs : List Func} {bbs bbs' : List (List Instr)} {f' : List Func}
    {c : Bool}
    (h : visitBlocks env funcs bbs = some (bbs', f', c)) (g : List Func) :
    visitBlocks env' g bbs' = some (bbs', g, false) := by
  induction bbs generalizing funcs bbs' f' c g with
  | nil =>
    simp only [visitBlocks, Option.some.injEq, Prod.mk.injEq] at h
    simp [visitBlocks, ← h.1]
  | cons bb rest ih =>
    simp only [visitBlocks] at h
    split at h
    · simp at h
    · rename_i heq
      split at h
      · simp at h
      · rename_i heq2
        simp only [Option.some.injEq, Prod.mk.injEq] at h
        rw [← h.1]
        simp only [visitBlocks, visitBlock_idem hE heq g, ih heq2 g]
        rfl

theorem visitBlock_total (env : List (List Instr)) (funcs : List Func)
    (bb : List Instr) (hwf : wellFormedBlock bb = true) :
    ∃ r, visitBlock env funcs bb = some r := by
  induction bb generalizing funcs with
  | nil => exact ⟨([], funcs, false), rfl⟩
  | cons i rest ih =>
    cases rest with
    | nil =>
      have hname : storeName env i = "" := by
        cases i with
        | store a b => simp [wellFormedBlock] at hwf
        | load a b t => rfl
        | call s => rfl
        | other => rfl
      exact ⟨_, visitBlock_cons_skip hname rfl⟩
    | cons n tail =>
      have hwf' : wellFormedBlock (n :: tail) = true := hwf
      by_cases hname : storeName env i = ""
      · obtain ⟨⟨r, f, c⟩, hr⟩ := ih funcs hwf'
        exact ⟨_, visitBlock_cons_skip hname hr⟩
      · by_cases hcall : succeededByCall n ("dl." ++ storeName env i) = true
        · obtain ⟨⟨r, f, c⟩, hr⟩ := ih funcs hwf'
          exact ⟨_, visitBlock_cons_skipcall hname hcall hr⟩
        · obtain ⟨⟨r, f, c⟩, hr⟩ :=
            ih (buildCall funcs ("dl." ++ storeName env i)) hwf'
          have hcall2 : succeededByCall n ("dl." ++ storeName env i)
              = false := by
            revert hcall
            cases succeededByCall n ("dl." ++ storeName env i) <;> simp
          exact ⟨_, visitBlock_cons_insert hname hcall2 hr⟩

theorem visitBlocks_total (env : List (List Instr)) (funcs : List Func)
    (bbs : List (List Instr))
    (hwf : ∀ b ∈ bbs, wellFormedBlock b = true) :
    ∃ r, visitBlocks env funcs bbs = some r := by
  induction bbs generalizing funcs with
  | nil => exact ⟨([], funcs, false), rfl⟩
  | cons bb rest ih =>
    obtain ⟨⟨bb2, f2, c1⟩, h1⟩ := visitBlock_total env funcs bb
      (hwf bb (by simp))
    obtain ⟨⟨rest2, f3, c2⟩, h2⟩ := ih f2 (fun b hb => hwf b (by simp [hb]))
    refine ⟨(bb2 :: rest2, f3, c1 || c2), ?_⟩
    simp only [visitBlocks, h1, h2]

theorem visitBlock_allSkip (env : List (List Instr)) (funcs : List Func)
    (bb : List Instr) (h : ∀ i, storeName env i = "") :
    visitBlock env funcs bb = some (bb, funcs, false) := by
  induction bb with
  | nil => rfl
  | cons i rest ih => exact visitBlock_cons_skip (h i) ih

theorem visitBlocks_allSkip (env : List (List Instr)) (funcs : List Func)
    (bbs : List (List Instr)) (h : ∀ i, storeName env i = "") :
    visitBlocks env funcs bbs = some (bbs, funcs, false) := by
  induction bbs with
  | nil => rfl
  | cons bb rest ih =>
    simp only [visitBlocks, visitBlock_allSkip env funcs bb h, ih]
    rfl

theorem findLoadB_mem {blocks : List (List Instr)} {id : Nat} {i : Instr}
    (h : findLoadB blocks id = some i) : ∃ bb ∈ blocks, i ∈ bb := by
  induction blocks with
  | nil => simp [findLoadB] at h
  | cons bb rest ih =>
    simp only [findLoadB] at h
    split at h
    · rename_i heq
      cases h
      exact ⟨bb, by simp, List.mem_of_find?_eq_some heq⟩
    · obtain ⟨b2, hb2, hi⟩ := ih h
      exact ⟨b2, by simp [hb2], hi⟩

theorem storeName_untagged {env : List (List Instr)}
    (henv : untaggedBlocks env = true) (i : Instr) : storeName env i = "" := by
  cases i with
  | load a b t => rfl
  | call s => rfl
  | other => rfl
  | store isPC v =>
    cases isPC with
    | false => rfl
    | true =>
      cases v with
      | none => rfl
      | some lid =>
        simp only [storeName]
        cases hf : findLoadB env lid with
        | none => rfl
        | some j =>
          obtain ⟨bb, hbb, hj⟩ := findLoadB_mem hf
          simp only [untaggedBlocks, List.all_eq_true] at henv
          have hu := henv bb hbb j hj
          cases j with
          | load a b t =>
            cases t with
            | none => rfl
            | some tg => simp [Instr.untagged] at hu
          | store a b => rfl
          | call s => rfl
          | other => rfl

end AddRelocationCallsPass

namespace LocateRelocationAccessesPass

theorem scanRelocations_tagged (relocs : List RelocationInfo) (a : Nat)
    (t : RelocTag) : scanRelocations relocs a (some t) = (some t, false) := by
  induction relocs with
  | nil => rfl
  | cons r rs ih =>
    simp only [scanRelocations]
    split <;> exact ih

end LocateRelocationAccessesPass

namespace TranslateRelocationCallsPass

theorem handleUsers_nonzero {t : RelocTag} (ha : ¬ t.addend = 0)
    (funcs : List Func) (id : Nat) (l : List Instr) :
    handleUsers funcs id t l = (l, funcs) := by
  induction l generalizing funcs with
  | nil => rfl
  | cons i rest ih =>
    simp only [handleUsers]
    split
    · rw [if_neg (by simp [ha]), ih]
    · rw [ih]

theorem handleLoadScan_tagged (funcs : List Func)
    (relocs : List RelocationInfo) (a id : Nat) (t : RelocTag)
    (rest : List Instr) :
    handleLoadScan funcs relocs a id (some t) rest
      = (some t, rest, funcs, false) := by
  induction relocs with
  | nil => rfl
  | cons r rs ih =>
    simp only [handleLoadScan]
    split <;> exact ih

end TranslateRelocationCallsPass

/-- C1: running the split variant's module-wide rewrite twice on the same
module produces the same module as running it once; the second run inserts
no duplicate calls and no duplicate tags, because a store whose next
instruction is already a call to the matching `dl.`-prefixed function is
skipped. -/
theorem AddRelocationCallsPass.runOnModule_idempotent (m m' : Module)
    (c : Bool) (h : AddRelocationCallsPass.runOnModule m = some (m', c)) :
    AddRelocationCallsPass.runOnModule m' = some (m', false) := by
  unfold AddRelocationCallsPass.runOnModule at h ⊢
  split at h
  · simp at h
  · rename_i heq
    simp only [Option.some.injEq, Prod.mk.injEq] at h
    rw [← h.1]
    have hE := AddRelocationCallsPass.visitBlocks_findLoadB heq
    rw [show (Module.mk _ _).blocks = _ from rfl,
      show (Module.mk _ _).funcs = _ from rfl,
      AddRelocationCallsPass.visitBlocks_idem hE heq]

/-- Witness for C1: the split rewrite inserts a call into a tagged module
and a second run leaves the result untouched. -/
theorem AddRelocationCallsPass.runOnModule_idempotent_witness :
    AddRelocationCallsPass.runOnModule ⟨[printfTaggedBlock], []⟩
      = some (⟨[printfRewrittenBlock], [⟨"dl.printf", true, 0, false, true⟩]⟩,
          true) ∧
    AddRelocationCallsPass.runOnModule
        ⟨[printfRewrittenBlock], [⟨"dl.printf", true, 0, false, true⟩]⟩
      = some (⟨[printfRewrittenBlock], [⟨"dl.printf", true, 0, false, true⟩]⟩,
          false) :=
  ⟨by decide,
   AddRelocationCallsPass.runOnModule_idempotent
     ⟨[printfTaggedBlock], []⟩
     ⟨[printfRewrittenBlock], [⟨"dl.printf", true, 0, false, true⟩]⟩
     true (by decide)⟩

/-- C8: a qualifying program-counter store with no following instruction
makes the split rewrite abort on its fatal-assertion path (modelled by
`none`: the source dereferences `getNextNode()` in `succeededByCall` and
asserts it non-null in `buildCall`); when every store of a block — and of
every block of a module — has a following instruction, the rewrite always
returns a result, so the assertion branch is unreachable. -/
theorem AddRelocationCallsPass.assertion_unreachable
    (env : List (List Instr)) (funcs : List Func) (i : Instr)
    (bb : List Instr) (m : Module)
    (hq : ¬ AddRelocationCallsPass.storeName env i = "") :
    AddRelocationCallsPass.visitBlock env funcs [i] = none ∧
    (AddRelocationCallsPass.wellFormedBlock bb = true →
      ∃ r, AddRelocationCallsPass.visitBlock env funcs bb = some r) ∧
    ((∀ b ∈ m.blocks, AddRelocationCallsPass.wellFormedBlock b = true) →
      ∃ r, AddRelocationCallsPass.runOnModule m = some r) := by
  refine ⟨?_, fun hwf => visitBlock_total env funcs bb hwf, fun hwf => ?_⟩
  · rw [AddRelocationCallsPass.visitBlock.eq_2, if_neg hq]
  · obtain ⟨⟨bbs, f2, c⟩, h⟩ :=
      visitBlocks_total m.blocks m.funcs m.blocks hwf
    refine ⟨(⟨bbs, f2⟩, c), ?_⟩
    unfold AddRelocationCallsPass.runOnModule
    rw [h]

/-- Witness for C8 on the tagged end-to-end block. -/
theorem AddRelocationCallsPass.assertion_unreachable_witness :
    (¬ AddRelocationCallsPass.storeName [printfTaggedBlock]
        (Instr.store true (some 1)) = "") ∧
    (AddRelocationCallsPass.visitBlock [printfTaggedBlock] []
        [Instr.store true (some 1)] = none ∧
     (AddRelocationCallsPass.wellFormedBlock printfTaggedBlock = true →
       ∃ r, AddRelocationCallsPass.visitBlock [printfTaggedBlock] []
         printfTaggedBlock = some r) ∧
     ((∀ b ∈ (⟨[printfTaggedBlock], []⟩ : Module).blocks,
         AddRelocationCallsPass.wellFormedBlock b = true) →
       ∃ r, AddRelocationCallsPass.runOnModule ⟨[printfTaggedBlock], []⟩
         = some r)) :=
  ⟨by decide,
   AddRelocationCallsPass.assertion_unreachable [printfTaggedBlock] []
     (Instr.store true (some 1)) printfTaggedBlock
     ⟨[printfTaggedBlock], []⟩ (by decide)⟩

/-- C4 counterexample: on the untagged end-to-end module the split variant
alone changes nothing — it computes no relocation tags inline — while
running the locator first and then the split rewrite tags the load and
inserts the call, so the split variant alone does not rewrite the same
program-counter stores as the locator-then-split pipeline. -/
theorem AddRelocationCallsPass.no_inline_locate_counterexample :
    AddRelocationCallsPass.runOnModule printfModule
      = some (printfModule, false) ∧
    LocateRelocationAccessesPass.runOnBasicBlock printfRelocs printfBlock
      = (printfTaggedBlock, true) ∧
    AddRelocationCallsPass.runOnModule ⟨[printfTaggedBlock], []⟩
      = some (⟨[printfRewrittenBlock], [⟨"dl.printf", true, 0, false, true⟩]⟩,
          true) ∧
    ¬ printfModule.blocks = [printfRewrittenBlock] :=
  ⟨by decide, by decide, by decide, by decide⟩

/-- C4 amended: the split variant consumes only tags already present; it
has no relocation table of its own, merely declares the locator
used-if-available, and on a module with no relocation tags it rewrites
nothing and reports no change. -/
theorem AddRelocationCallsPass.untagged_identity (m : Module)
    (h : untaggedBlocks m.blocks = true) :
    AddRelocationCallsPass.runOnModule m = some (m, false) := by
  unfold AddRelocationCallsPass.runOnModule
  rw [AddRelocationCallsPass.visitBlocks_allSkip m.blocks m.funcs m.blocks
    (AddRelocationCallsPass.storeName_untagged h)]

/-- Witness for C4 amended on the untagged end-to-end module. -/
theorem AddRelocationCallsPass.untagged_identity_witness :
    untaggedBlocks printfModule.blocks = true ∧
    AddRelocationCallsPass.runOnModule printfModule
      = some (printfModule, false) :=
  ⟨by decide, AddRelocationCallsPass.untagged_identity printfModule
    (by decide)⟩

/-- C2: a program-counter store whose stored value is a load tagged with a
nonzero addend produces no synthesized call in either variant and is left
unmodified: the split visitor treats it as non-qualifying and passes it
through, and the fused user loop returns the block and the function table
untouched. -/
theorem zero_addend_gate (env : List (List Instr)) (funcs : List Func)
    (lid : Nat) (p : Option Nat) (t : RelocTag) (rest out : List Instr)
    (g2 : List Func) (c2 : Bool)
    (hfind : AddRelocationCallsPass.findLoadB env lid
       = some (.load lid p (some t)))
    (haddend : ¬ t.addend = 0)
    (hrest : AddRelocationCallsPass.visitBlock env funcs rest
       = some (out, g2, c2)) :
    AddRelocationCallsPass.storeName env (.store true (some lid)) = "" ∧
    AddRelocationCallsPass.visitBlock env funcs
        (.store true (some lid) :: rest)
      = some (.store true (some lid) :: out, g2, c2) ∧
    TranslateRelocationCallsPass.handleUsers funcs lid t rest
      = (rest, funcs) := by
  have hname : AddRelocationCallsPass.storeName env
      (.store true (some lid)) = "" := by
    simp [AddRelocationCallsPass.storeName, hfind,
      AddRelocationCallsPass.getRelocName, haddend]
  exact ⟨hname, AddRelocationCallsPass.visitBlock_cons_skip hname hrest,
    TranslateRelocationCallsPass.handleUsers_nonzero haddend funcs lid rest⟩

/-- Witness for C2 with the spec's nonzero-addend scenario tag
`("data_sym", 8)`. -/
theorem zero_addend_gate_witness :
    (AddRelocationCallsPass.findLoadB
        [[Instr.load 1 (some 0x4020) (some ⟨"data_sym", 8⟩)]] 1
      = some (.load 1 (some 0x4020) (some ⟨"data_sym", 8⟩))) ∧
    (¬ (⟨"data_sym", 8⟩ : RelocTag).addend = 0) ∧
    (AddRelocationCallsPass.storeName
        [[Instr.load 1 (some 0x4020) (some ⟨"data_sym", 8⟩)]]
        (.store true (some 1)) = "" ∧
     AddRelocationCallsPass.visitBlock
        [[Instr.load 1 (some 0x4020) (some ⟨"data_sym", 8⟩)]] []
        [.store true (some 1), .other]
       = some ([.store true (some 1), .other], [], false) ∧
     TranslateRelocationCallsPass.handleUsers [] 1 ⟨"data_sym", 8⟩ [.other]
       = ([.other], [])) :=
  ⟨by decide, by decide,
   zero_addend_gate [[Instr.load 1 (some 0x4020) (some ⟨"data_sym", 8⟩)]]
     [] 1 (some 0x4020) ⟨"data_sym", 8⟩ [.other] [.other] [] false
     (by decide) (by decide) (by decide)⟩

/-- C6: a relocation tag is write-once: re-scanning an already tagged load
leaves the tag and the block unchanged and reports no change, in the
locator as in the fused variant, and the split rewrite never adds, removes
or alters any non-call instruction (in particular it never touches a load
or its tag). -/
theorem tag_write_once (relocs : List RelocationInfo) (funcs g : List Func)
    (a id : Nat) (t : RelocTag) (rest : List Instr)
    (env : List (List Instr)) (bb bb' : List Instr) (f' : List Func)
    (c : Bool)
    (h : AddRelocationCallsPass.visitBlock env g bb = some (bb', f', c)) :
    LocateRelocationAccessesPass.scanRelocations relocs a (some t)
      = (some t, false) ∧
    TranslateRelocationCallsPass.handleLoadScan funcs relocs a id (some t)
      rest = (some t, rest, funcs, false) ∧
    (∀ p : Instr → Bool, (∀ s, p (Instr.call s) = false) →
      bb'.filter p = bb.filter p) :=
  ⟨LocateRelocationAccessesPass.scanRelocations_tagged relocs a t,
   TranslateRelocationCallsPass.handleLoadScan_tagged funcs relocs a id t
     rest,
   fun pr hp => AddRelocationCallsPass.visitBlock_filter h pr hp⟩

/-- Witness for C6 on the end-to-end data. -/
theorem tag_write_once_witness :
    LocateRelocationAccessesPass.scanRelocations printfRelocs 0x4020
        (some ⟨"printf", 0⟩) = (some ⟨"printf", 0⟩, false) ∧
    TranslateRelocationCallsPass.handleLoadScan [] printfRelocs 0x4020 1
        (some ⟨"printf", 0⟩) [] = (some ⟨"printf", 0⟩, [], [], false) ∧
    printfRewrittenBlock.filter Instr.isLoad
      = printfTaggedBlock.filter Instr.isLoad := by
  have H := tag_write_once printfRelocs [] [] 0x4020 1 ⟨"printf", 0⟩ []
    [printfTaggedBlock] printfTaggedBlock printfRewrittenBlock
    [⟨"dl.printf", true, 0, false, true⟩] true (by decide)
  exact ⟨H.1, H.2.1, H.2.2 Instr.isLoad (fun s => rfl)⟩

namespace TranslateRelocationCallsPass

theorem handleLoadScan_noMatch (funcs : List Func)
    {relocs : List RelocationInfo} {a : Nat}
    (hm : ∀ r ∈ relocs, (r.Address == a) = false)
    (id : Nat) (tag : Option RelocTag) (rest : List Instr) :
    handleLoadScan funcs relocs a id tag rest = (tag, rest, funcs, false) := by
  induction relocs with
  | nil => rfl
  | cons r rs ih =>
    simp only [handleLoadScan]
    rw [if_neg (by simp [hm r (by simp)])]
    exact ih (fun s hs => hm s (by simp [hs]))

theorem handleLoadScan_eq_none (funcs : List Func)
    (relocs : List RelocationInfo) (a id : Nat) (tag : Option RelocTag)
    (rest : List Instr) :
    (handleLoadScan funcs relocs a id tag rest).1 = none →
    ∀ r ∈ relocs, (r.Address == a) = false := by
  induction relocs with
  | nil =>
    intro h r hr
    simp at hr
  | cons r rs ih =>
    intro h s hs
    cases tag with
    | some t =>
      rw [handleLoadScan_tagged] at h
      simp at h
    | none =>
      simp only [handleLoadScan] at h
      by_cases hc : (r.Address == a) = true
      · rw [if_pos hc] at h
        simp at h
      · rw [if_neg hc] at h
        rcases List.mem_cons.mp hs with rfl | hmem
        · simpa using hc
        · exact ih h s hmem

theorem runOnInstrList_establishes (relocs : List RelocationInfo)
    (funcs : List Func) (bb : List Instr) :
    noMatchingUntagged relocs (runOnInstrList relocs funcs bb).1 = true := by
  induction funcs, bb using runOnInstrList.induct relocs with
  | case1 funcs => simp [runOnInstrList, noMatchingUntagged]
  | case2 funcs id a tag rest s ih =>
    have hs : s = handleLoadScan funcs relocs a id tag rest := rfl
    rw [hs] at ih
    rw [runOnInstrList.eq_2]
    simp only [noMatchingUntagged, List.all_cons, Bool.and_eq_true] at ih ⊢
    refine ⟨?_, ih⟩
    cases hscan : (handleLoadScan funcs relocs a id tag rest).1 with
    | some t => rfl
    | none =>
      have hm := handleLoadScan_eq_none funcs relocs a id tag rest hscan
      simp only [List.all_eq_true]
      intro r hr
      simp [hm r hr]
  | case3 funcs i rest hni ih =>
    rw [runOnInstrList.eq_3 relocs funcs i rest hni]
    simp only [noMatchingUntagged, List.all_cons, Bool.and_eq_true] at ih ⊢
    refine ⟨?_, ih⟩
    cases i with
    | load id ptrC tag =>
      cases ptrC with
      | none => rfl
      | some a => exact absurd rfl (hni id a tag)
    | store a b => rfl
    | call s => rfl
    | other => rfl

theorem runOnInstrList_noop (relocs : List RelocationInfo)
    (funcs : List Func) (bb : List Instr)
    (h : noMatchingUntagged relocs bb = true) :
    runOnInstrList relocs funcs bb = (bb, funcs, false) := by
  revert h
  induction funcs, bb using runOnInstrList.induct relocs with
  | case1 funcs => intro h; rw [runOnInstrList.eq_1]
  | case2 funcs id a tag rest s ih =>
    have hs : s = handleLoadScan funcs relocs a id tag rest := rfl
    rw [hs] at ih
    intro h
    simp only [noMatchingUntagged, List.all_cons, Bool.and_eq_true] at h
    have htail : noMatchingUntagged relocs rest = true := h.2
    cases tag with
    | none =>
      have hm : ∀ r ∈ relocs, (r.Address == a) = false := by
        have hh := h.1
        simp only [List.all_eq_true] at hh
        intro r hr
        have := hh r hr
        simpa using this
      have hscan := handleLoadScan_noMatch funcs hm id
        (none : Option RelocTag) rest
      rw [runOnInstrList.eq_2]
      rw [hscan] at ih ⊢
      simp only at ih ⊢
      rw [ih htail]
      rfl
    | some t =>
      have hscan := handleLoadScan_tagged funcs relocs a id t rest
      rw [runOnInstrList.eq_2]
      rw [hscan] at ih ⊢
      simp only at ih ⊢
      rw [ih htail]
      rfl
  | case3 funcs i rest hni ih =>
    intro h
    simp only [noMatchingUntagged, List.all_cons, Bool.and_eq_true] at h
    rw [runOnInstrList.eq_3 relocs funcs i rest hni]
    rw [ih h.2]

end TranslateRelocationCallsPass

/-- C10: the fused variant is idempotent: a second run over the block it
produced inserts no call, changes nothing and reports no change, because
call synthesis happens only when a load is freshly tagged and every load the
first run could tag is tagged afterwards. -/
theorem TranslateRelocationCallsPass.runOnBasicBlock_idempotent
    (relocs : List RelocationInfo) (funcs funcs2 : List Func)
    (bb bb' : List Instr) (f' : List Func) (c : Bool)
    (h : TranslateRelocationCallsPass.runOnBasicBlock relocs funcs bb
      = (bb', f', c)) :
    TranslateRelocationCallsPass.runOnBasicBlock relocs funcs2 bb'
      = (bb', funcs2, false) := by
  have he := runOnInstrList_establishes relocs funcs bb
  rw [show runOnInstrList relocs funcs bb = (bb', f', c) from h] at he
  exact runOnInstrList_noop relocs funcs2 bb' he

/-- Witness for C10 on the end-to-end block. -/
theorem TranslateRelocationCallsPass.runOnBasicBlock_idempotent_witness :
    TranslateRelocationCallsPass.runOnBasicBlock printfRelocs [] printfBlock
      = (printfFusedBlock, [⟨"printf", true, 0, true, false⟩], true) ∧
    TranslateRelocationCallsPass.runOnBasicBlock printfRelocs []
        printfFusedBlock = (printfFusedBlock, [], false) := by
  have h1 : TranslateRelocationCallsPass.runOnBasicBlock printfRelocs []
      printfBlock = (printfFusedBlock, [⟨"printf", true, 0, true, false⟩],
        true) := by
    simp [TranslateRelocationCallsPass.runOnBasicBlock, printfRelocs,
      printfBlock, printfFusedBlock, TranslateRelocationCallsPass.runOnInstrList,
      TranslateRelocationCallsPass.handleLoadScan,
      TranslateRelocationCallsPass.handleUsers,
      TranslateRelocationCallsPass.isUserPCStore, getOrInsertFunction]
  exact ⟨h1, TranslateRelocationCallsPass.runOnBasicBlock_idempotent
    printfRelocs [] [] printfBlock printfFusedBlock
    [⟨"printf", true, 0, true, false⟩] true h1⟩

/-- C5 counterexample: the split variant alone on the untagged end-to-end
block changes nothing: afterwards the block still holds no call to
`dl.printf` and the load still carries no tag, contrary to the claim. -/
theorem end_to_end_split_alone_counterexample :
    AddRelocationCallsPass.runOnModule printfModule
      = some (printfModule, false) ∧
    ¬ Instr.call (some "dl.printf") ∈ printfBlock ∧
    ¬ Instr.load 1 (some 0x4020) (some ⟨"printf", 0⟩) ∈ printfBlock :=
  ⟨by decide, by decide, by decide⟩

/-- C5 amended: running the locator and then the split variant on the
end-to-end scenario tags the load with `("printf", 0)` and produces the
block in which `store(PC, r)` is immediately followed by
`call dl.printf()`. -/
theorem end_to_end_locator_then_split :
    LocateRelocationAccessesPass.runOnBasicBlock printfRelocs printfBlock
      = (printfTaggedBlock, true) ∧
    AddRelocationCallsPass.runOnModule ⟨[printfTaggedBlock], []⟩
      = some (⟨[printfRewrittenBlock], [⟨"dl.printf", true, 0, false, true⟩]⟩,
          true) ∧
    printfTaggedBlock
      = [.load 1 (some 0x4020) (some ⟨"printf", 0⟩), .store true (some 1),
         .other] ∧
    printfRewrittenBlock
      = [.load 1 (some 0x4020) (some ⟨"printf", 0⟩), .store true (some 1),
         .call (some "dl.printf"), .other] :=
  ⟨by decide, by decide, by decide, by decide⟩

/-- C9: annotating with `["libc.so.6", "libm.so.6"]` attaches module-level
metadata listing exactly those two library names, one entry per library, in
that input order, whatever metadata was attached before. -/
theorem AddLibraryMetadataPass.library_metadata_order
    (prior : Option (List String)) :
    AddLibraryMetadataPass.runOnModule ["libc.so.6", "libm.so.6"] prior
      = some ["libc.so.6", "libm.so.6"] := rfl

/-- Witness for C9 with no prior metadata attached. -/
theorem AddLibraryMetadataPass.library_metadata_order_witness :
    AddLibraryMetadataPass.runOnModule ["libc.so.6", "libm.so.6"] none
      = some ["libc.so.6", "libm.so.6"] :=
  AddLibraryMetadataPass.library_metadata_order none

/-- Every instruction prepended or kept by the passes is compared against a
call by name; a non-call never counts. -/
theorem countCallsTo_cons_ne {x : Instr} {nm : String}
    (hx : ¬ x = .call (some nm)) (l : List Instr) :
    countCallsTo (x :: l) nm = countCallsTo l nm := by
  simp [countCallsTo, List.countP_cons, hx]

theorem countCallsTo_cons_self (nm : String) (l : List Instr) :
    countCallsTo (Instr.call (some nm) :: l) nm = countCallsTo l nm + 1 := by
  simp [countCallsTo, List.countP_cons]

namespace TranslateRelocationCallsPass

theorem handleUsers_countCalls (funcs : List Func) (id : Nat) (t : RelocTag)
    (l : List Instr) (nm : String) :
    countCallsTo (handleUsers funcs id t l).1 nm = countCallsTo l nm ∨
      (nm = t.symName ∧ t.addend = 0) := by
  induction l generalizing funcs with
  | nil => left; rfl
  | cons i rest ih =>
    simp only [handleUsers]
    split
    · split
      · rename_i hst haddend
        by_cases hnm : nm = t.symName
        · right
          exact ⟨hnm, by simpa using haddend⟩
        · rcases ih (getOrInsertFunction funcs t.symName true) with h1 | h2
          · left
            have hxne : ¬ (Instr.call (some t.symName))
                = Instr.call (some nm) := by
              simp only [Instr.call.injEq, Option.some.injEq]
              exact fun hh => hnm hh.symm
            rw [countCallsTo_cons_ne hxne]
            simp only [countCallsTo, List.countP_cons] at h1 ⊢
            rw [h1]
          · right; exact h2
      · rcases ih funcs with h1 | h2
        · left
          simp only [countCallsTo, List.countP_cons] at h1 ⊢
          rw [h1]
        · right; exact h2
    · rcases ih funcs with h1 | h2
      · left
        simp only [countCallsTo, List.countP_cons] at h1 ⊢
        rw [h1]
      · right; exact h2

theorem handleLoadScan_countCalls (funcs : List Func)
    (relocs : List RelocationInfo) (a id : Nat) (tag : Option RelocTag)
    (rest : List Instr) (nm : String) :
    countCallsTo (handleLoadScan funcs relocs a id tag rest).2.1 nm
      = countCallsTo rest nm ∨
      ∃ r ∈ relocs, nm = r.Name ∧ r.Addend = 0 := by
  induction relocs generalizing tag with
  | nil => left; rfl
  | cons r rs ih =>
    simp only [handleLoadScan]
    split
    · split
      · rcases handleUsers_countCalls funcs id ⟨r.Name, r.Addend⟩ rest nm
          with h1 | h2
        · left; exact h1
        · right; exact ⟨r, by simp, h2.1, h2.2⟩
      · rcases ih _ with h1 | ⟨r2, hr2, hh⟩
        · left; exact h1
        · right; exact ⟨r2, by simp [hr2], hh⟩
    · rcases ih tag with h1 | ⟨r2, hr2, hh⟩
      · left; exact h1
      · right; exact ⟨r2, by simp [hr2], hh⟩

theorem runOnInstrList_countCalls (relocs : List RelocationInfo)
    (funcs : List Func) (bb : List Instr) (nm : String) :
    countCallsTo (runOnInstrList relocs funcs bb).1 nm
      = countCallsTo bb nm ∨ ∃ r ∈ relocs, nm = r.Name ∧ r.Addend = 0 := by
  induction funcs, bb using runOnInstrList.induct relocs with
  | case1 funcs => left; rw [runOnInstrList.eq_1]
  | case2 funcs id a tag rest s ih =>
    have hs : s = handleLoadScan funcs relocs a id tag rest := rfl
    rw [hs] at ih
    rw [runOnInstrList.eq_2]
    rcases ih with h1 | hr
    · rcases handleLoadScan_countCalls funcs relocs a id tag rest nm
        with h2 | hr
      · left
        rw [countCallsTo_cons_ne (fun hh => Instr.noConfusion hh),
          countCallsTo_cons_ne (fun hh => Instr.noConfusion hh), h1, h2]
      · right; exact hr
    · right; exact hr
  | case3 funcs i rest hni ih =>
    rw [runOnInstrList.eq_3 relocs funcs i rest hni]
    rcases ih with h1 | hr
    · left
      simp only [countCallsTo, List.countP_cons] at h1 ⊢
      rw [h1]
    · right; exact hr

end TranslateRelocationCallsPass

namespace AddRelocationCallsPass

theorem visitBlock_countCalls {env : List (List Instr)} {funcs : List Func}
    {bb bb' : List Instr} {f' : List Func} {c : Bool}
    (h : visitBlock env funcs bb = some (bb', f', c)) (nm : String) :
    countCallsTo bb' nm = countCallsTo bb nm ∨
      ∃ s, ¬ s = "" ∧ (∃ j ∈ bb, storeName env j = s) ∧ nm = "dl." ++ s := by
  induction bb generalizing funcs bb' f' c with
  | nil =>
    simp only [visitBlock, Option.some.injEq, Prod.mk.injEq] at h
    left; rw [← h.1]
  | cons i rest ih =>
    simp only [visitBlock] at h
    split at h
    · split at h
      · simp at h
      · rename_i heq
        simp only [Option.some.injEq, Prod.mk.injEq] at h
        rcases ih heq with h1 | ⟨s, hs1, ⟨j, hj, hj2⟩, hs3⟩
        · left
          rw [← h.1]
          simp only [countCallsTo, List.countP_cons] at h1 ⊢
          rw [h1]
        · right; exact ⟨s, hs1, ⟨j, by simp [hj], hj2⟩, hs3⟩
    · rename_i hname
      split at h
      · simp at h
      · rename_i n rtl
        split at h
        · split at h
          · simp at h
          · rename_i heq
            simp only [Option.some.injEq, Prod.mk.injEq] at h
            rcases ih heq with h1 | ⟨s, hs1, ⟨j, hj, hj2⟩, hs3⟩
            · left
              rw [← h.1]
              simp only [countCallsTo, List.countP_cons] at h1 ⊢
              rw [h1]
            · right; exact ⟨s, hs1, ⟨j, by simp [hj], hj2⟩, hs3⟩
        · split at h
          · simp at h
          · rename_i heq
            simp only [Option.some.injEq, Prod.mk.injEq] at h
            by_cases hnm : nm = "dl." ++ storeName env i
            · right
              exact ⟨storeName env i, hname, ⟨i, by simp, rfl⟩, hnm⟩
            · rcases ih heq with h1 | ⟨s, hs1, ⟨j, hj, hj2⟩, hs3⟩
              · left
                rw [← h.1]
                have hxne : ¬ Instr.call (some ("dl." ++ storeName env i))
                    = Instr.call (some nm) := by
                  simp only [Instr.call.injEq, Option.some.injEq]
                  exact fun hh => hnm hh.symm
                simp only [countCallsTo, List.countP_cons] at h1 ⊢
                have hb : ((Instr.call (some ("dl." ++ storeName env i))
                    == Instr.call (some nm))) = false := by
                  rw [beq_eq_false_iff_ne]
                  exact hxne
                simp only [hb, if_false, Bool.false_eq_true]
                rw [h1]
                omega
              · right; exact ⟨s, hs1, ⟨j, by simp [hj], hj2⟩, hs3⟩

end AddRelocationCallsPass

/-- C3 amended: every call the split variant synthesizes targets a function
named exactly `"dl." ++ s` for the non-empty symbol name `s` of the tag of
some qualifying store of the block, while every call the fused variant
synthesizes targets a function named exactly the symbol name of a
zero-addend relocation record, with no `"dl."` prefix. -/
theorem synthesized_call_names (env : List (List Instr))
    (funcs gfuncs : List Func) (bb bb' gbb : List Instr) (f' : List Func)
    (c : Bool) (relocs : List RelocationInfo)
    (h : AddRelocationCallsPass.visitBlock env funcs bb = some (bb', f', c)) :
    (∀ nm, countCallsTo bb' nm = countCallsTo bb nm ∨
      ∃ s, ¬ s = "" ∧
        (∃ j ∈ bb, AddRelocationCallsPass.storeName env j = s) ∧
        nm = "dl." ++ s) ∧
    (∀ nm, countCallsTo
        (TranslateRelocationCallsPass.runOnBasicBlock relocs gfuncs gbb).1 nm
      = countCallsTo gbb nm ∨ ∃ r ∈ relocs, nm = r.Name ∧ r.Addend = 0) :=
  ⟨fun nm => AddRelocationCallsPass.visitBlock_countCalls h nm,
   fun nm => TranslateRelocationCallsPass.runOnInstrList_countCalls relocs
     gfuncs gbb nm⟩

/-- Witness for C3 amended on the end-to-end data. -/
theorem synthesized_call_names_witness :
    (countCallsTo printfRewrittenBlock "dl.printf"
        = countCallsTo printfTaggedBlock "dl.printf" ∨
      ∃ s, ¬ s = "" ∧
        (∃ j ∈ printfTaggedBlock,
          AddRelocationCallsPass.storeName [printfTaggedBlock] j = s) ∧
        "dl.printf" = "dl." ++ s) ∧
    (countCallsTo
        (TranslateRelocationCallsPass.runOnBasicBlock printfRelocs []
          printfBlock).1 "printf" = countCallsTo printfBlock "printf" ∨
      ∃ r ∈ printfRelocs, "printf" = r.Name ∧ r.Addend = 0) := by
  have H := synthesized_call_names [printfTaggedBlock] [] [] printfTaggedBlock
    printfRewrittenBlock printfBlock [⟨"dl.printf", true, 0, false, true⟩]
    true printfRelocs (by decide)
  exact ⟨H.1 "dl.printf", H.2 "printf"⟩

/-- C3 counterexample: on the end-to-end scenario the fused variant
synthesizes a call whose callee is named `"printf"` — the bare symbol name
of the triggering tag — which is not `"dl." ++ "printf"`, so not every
synthesized call targets a `"dl."`-prefixed function. -/
theorem fused_call_name_counterexample :
    TranslateRelocationCallsPass.runOnBasicBlock printfRelocs [] printfBlock
      = (printfFusedBlock, [⟨"printf", true, 0, true, false⟩], true) ∧
    Instr.call (some "printf") ∈ printfFusedBlock ∧
    ¬ "printf" = "dl." ++ "printf" := by
  refine ⟨?_, by decide, by decide⟩
  simp [TranslateRelocationCallsPass.runOnBasicBlock, printfRelocs,
    printfBlock, printfFusedBlock,
    TranslateRelocationCallsPass.runOnInstrList,
    TranslateRelocationCallsPass.handleLoadScan,
    TranslateRelocationCallsPass.handleUsers,
    TranslateRelocationCallsPass.isUserPCStore, getOrInsertFunction]

namespace AddRelocationCallsPass

theorem buildCall_stub_inv (n : String) (g : List Func) (nm : String)
    (hg : (∀ f ∈ g, f.name = n → f = ⟨n, true, 0, false, true⟩) ∧
          g.countP (fun f => f.name == n) ≤ 1) :
    (∀ f ∈ buildCall g nm, f.name = n → f = ⟨n, true, 0, false, true⟩) ∧
    (buildCall g nm).countP (fun f => f.name == n) ≤ 1 := by
  have hupdname : ∀ f : Func,
      ((if f.name == nm && !f.hasBody then { f with hasBody := true }
        else f) : Func).name = f.name := by
    intro f; split <;> rfl
  have hcount : ∀ l : List Func,
      (l.map (fun f => if f.name == nm && !f.hasBody then
          { f with hasBody := true } else f)).countP
        (fun f => f.name == n)
      = l.countP (fun f => f.name == n) := by
    intro l
    induction l with
    | nil => rfl
    | cons f fs ih => simp only [List.map_cons, List.countP_cons, ih, hupdname]
  unfold buildCall getOrInsertFunction
  by_cases hany : g.any (fun f => f.name == nm) = true
  · rw [if_pos hany]
    refine ⟨?_, by rw [hcount g]; exact hg.2⟩
    intro f2 hf2 hn2
    obtain ⟨f0, hf0, rfl⟩ := List.mem_map.mp hf2
    have hname0 : f0.name = n := by rw [← hupdname f0]; exact hn2
    have hshape := hg.1 f0 hf0 hname0
    rw [hshape]
    simp
  · rw [if_neg hany]
    have hmem0 : ∀ f ∈ g, (f.name == nm) = false := by
      intro f hf
      rcases hb : (f.name == nm) with _ | _
      · rfl
      · exact absurd (List.any_eq_true.mpr ⟨f, hf, hb⟩) hany
    constructor
    · intro f2 hf2 hn2
      obtain ⟨f0, hf0, rfl⟩ := List.mem_map.mp hf2
      have hname0 : f0.name = n := by rw [← hupdname f0]; exact hn2
      rcases List.mem_append.mp hf0 with hf0g | hf0new
      · have hshape := hg.1 f0 hf0g hname0
        rw [hshape]
        simp
      · have hf0eq : f0 = ⟨nm, true, 0, false, false⟩ := by simpa using hf0new
        subst hf0eq
        have hnmn : nm = n := hname0
        subst hnmn
        simp
    · rw [hcount, List.countP_append]
      by_cases hnmn : nm = n
      · subst hnmn
        have hzero : g.countP (fun f => f.name == nm) = 0 :=
          List.countP_eq_zero.mpr (fun f hf => by simp [hmem0 f hf])
        rw [hzero]
        simp [List.countP_cons]
      · have hnew : ((⟨nm, true, 0, false, false⟩ : Func).name == n)
            = false := by
          simp only [beq_eq_false_iff_ne, ne_eq]
          exact hnmn
        have hone : ([(⟨nm, true, 0, false, false⟩ : Func)]).countP
            (fun f => f.name == n) = 0 := by
          simp [List.countP_cons, hnew]
        rw [hone]
        simpa using hg.2

theorem visitBlock_funcs_inv {env : List (List Instr)} {funcs : List Func}
    {bb bb' : List Instr} {f' : List Func} {c : Bool}
    (h : visitBlock env funcs bb = some (bb', f', c))
    (P : List Func → Prop)
    (hP : ∀ g nm, P g → P (buildCall g nm)) (hf : P funcs) : P f' := by
  induction bb generalizing funcs bb' f' c with
  | nil =>
    simp only [visitBlock, Option.some.injEq, Prod.mk.injEq] at h
    rw [← h.2.1]
    exact hf
  | cons i rest ih =>
    simp only [visitBlock] at h
    split at h
    · split at h
      · simp at h
      · rename_i heq
        simp only [Option.some.injEq, Prod.mk.injEq] at h
        rw [← h.2.1]
        exact ih heq hf
    · split at h
      · simp at h
      · split at h
        · split at h
          · simp at h
          · rename_i heq
            simp only [Option.some.injEq, Prod.mk.injEq] at h
            rw [← h.2.1]
            exact ih heq hf
        · split at h
          · simp at h
          · rename_i heq
            simp only [Option.some.injEq, Prod.mk.injEq] at h
            rw [← h.2.1]
            exact ih heq (hP funcs _ hf)

theorem visitBlocks_funcs_inv {env : List (List Instr)} {funcs : List Func}
    {bbs bbs' : List (List Instr)} {f' : List Func} {c : Bool}
    (h : visitBlocks env funcs bbs = some (bbs', f', c))
    (P : List Func → Prop)
    (hP : ∀ g nm, P g → P (buildCall g nm)) (hf : P funcs) : P f' := by
  induction bbs generalizing funcs bbs' f' c with
  | nil =>
    simp only [visitBlocks, Option.some.injEq, Prod.mk.injEq] at h
    rw [← h.2.1]
    exact hf
  | cons bb rest ih =>
    simp only [visitBlocks] at h
    split at h
    · simp at h
    · rename_i heq
      split at h
      · simp at h
      · rename_i heq2
        simp only [Option.some.injEq, Prod.mk.injEq] at h
        rw [← h.2.1]
        exact ih heq2 (visitBlock_funcs_inv heq P hP hf)

end AddRelocationCallsPass

/-- C7: if the module holds no function named `n` beforehand, then after
the split rewrite at most one function named `n` exists, and any function
named `n` it created is a varargs-free, parameterless, void-returning stub
with a minimal body — so every synthesized call to symbol `s` targets the
one function named `"dl." ++ s`, not a second declaration. -/
theorem AddRelocationCallsPass.stub_reuse (m m' : Module) (c : Bool)
    (n : String) (h : AddRelocationCallsPass.runOnModule m = some (m', c))
    (h0 : m.funcs.countP (fun f => f.name == n) = 0) :
    m'.funcs.countP (fun f => f.name == n) ≤ 1 ∧
    ∀ f ∈ m'.funcs, f.name = n → f = ⟨n, true, 0, false, true⟩ := by
  unfold AddRelocationCallsPass.runOnModule at h
  split at h
  · simp at h
  · rename_i heq
    simp only [Option.some.injEq, Prod.mk.injEq] at h
    have hshape0 : ∀ f ∈ m.funcs, f.name = n
        → f = (⟨n, true, 0, false, true⟩ : Func) := by
      intro f hf hn2
      have hz := List.countP_eq_zero.mp h0 f hf
      simp [hn2] at hz
    have hP := visitBlocks_funcs_inv heq
      (fun g => (∀ f ∈ g, f.name = n → f = ⟨n, true, 0, false, true⟩) ∧
        g.countP (fun f => f.name == n) ≤ 1)
      (fun g nm hg => buildCall_stub_inv n g nm hg)
      ⟨hshape0, by rw [h0]; exact Nat.zero_le 1⟩
    rw [← h.1]
    exact ⟨hP.2, hP.1⟩

/-- Witness for C7: two stores referencing `printf` yield one shared stub
`dl.printf`. -/
theorem AddRelocationCallsPass.stub_reuse_witness :
    AddRelocationCallsPass.runOnModule twoStoreModule
      = some (twoStoreOut, true) ∧
    twoStoreModule.funcs.countP (fun f => f.name == "dl.printf") = 0 ∧
    (twoStoreOut.funcs.countP (fun f => f.name == "dl.printf") ≤ 1 ∧
     ∀ f ∈ twoStoreOut.funcs, f.name = "dl.printf"
       → f = ⟨"dl.printf", true, 0, false, true⟩) :=
  ⟨by decide, by decide,
   AddRelocationCallsPass.stub_reuse twoStoreModule twoStoreOut true
     "dl.printf" (by decide) (by decide)⟩

end Revamb
